import Mathlib

/-!
Shallow embedding of `tournament.py` (a Swiss-system tournament manager) and
proofs of the specification's claims about it.

The standings store (a PostgreSQL table `standings (id serial, name, wins,
matches)`) is modelled as a list of records plus the next serial id.  SQL
statements are modelled by their row-level semantics:
`UPDATE ... WHERE id = x` maps the matching rows, `DELETE FROM standings`
empties the list, `INSERT` appends a fresh record with the next serial id.
`bleach.clean` (HTML sanitisation of the name, an external library concern
irrelevant to every claim here) is not modelled; names are stored as given.

Randomness: Python's `random.shuffle` of the competitor list is modelled by an
explicit `shuffles : Nat → List Nat` stream (one shuffled list per loop
iteration), constrained in theorems by a permutation hypothesis, and the
per-pair `shuffle(pair)` of a two-element list is modelled by a stream of
booleans (`true` = reversed order).
-/

namespace Tournament

/-- One row of the `standings` table: `(id, name, wins, matches)`.
(`matches` is a Lean keyword, hence the field name `matchesPlayed`.) -/
structure Rec where
  id : Nat
  name : String
  wins : Nat
  matchesPlayed : Nat
deriving DecidableEq, Repr

/-- The database: the `standings` table rows in insertion order, plus the
next value of the serial id sequence (`DELETE` does not reset a sequence). -/
structure DB where
  standings : List Rec
  nextId : Nat
deriving DecidableEq, Repr

/-- `deletePlayers`: `DELETE FROM standings;`. -/
def deletePlayers (db : DB) : DB :=
  { db with standings := [] }

/-- `deleteMatches`: `UPDATE standings SET wins = 0, matches = 0;`. -/
def deleteMatches (db : DB) : DB :=
  { db with standings := db.standings.map fun r => { r with wins := 0, matchesPlayed := 0 } }

/-- `countPlayers`: `SELECT count(*) FROM standings;`. -/
def countPlayers (db : DB) : Nat :=
  db.standings.length

/-- `registerPlayer(name)`: insert a row with the next serial id and zero
wins/matches. -/
def registerPlayer (name : String) (db : DB) : DB :=
  { standings := db.standings ++ [⟨db.nextId, name, 0, 0⟩], nextId := db.nextId + 1 }

/-- The `for name in players: registerPlayer(name)` loop of `round_robin`
and `custom_tournament`. -/
def registerAll (names : List String) (db : DB) : DB :=
  names.foldl (fun d n => registerPlayer n d) db

/-- `SELECT id FROM standings;` (rows in table order). -/
def dbIds (db : DB) : List Nat :=
  db.standings.map (·.id)

/-- `reportMatch(winner, loser)`: two sequential `UPDATE` statements, the
first adding a win and a match to every row whose id is `winner`, the second
adding a match to every row whose id is `loser`. -/
def reportMatch (winner loser : Nat) (db : DB) : DB :=
  let s1 := db.standings.map fun r =>
    if r.id = winner then { r with wins := r.wins + 1, matchesPlayed := r.matchesPlayed + 1 } else r
  let s2 := s1.map fun r =>
    if r.id = loser then { r with matchesPlayed := r.matchesPlayed + 1 } else r
  { db with standings := s2 }

/-- Folding `reportMatch` over a list of `(winner, loser)` outcomes, in order. -/
def recordAll (outs : List (Nat × Nat)) (db : DB) : DB :=
  outs.foldl (fun d p => reportMatch p.1 p.2 d) db

/-- `swissPairings`, as a function of the list fetched by
`SELECT id, name FROM standings ORDER BY wins DESC;`: `zip(players, players[1:])`
followed by `islice(pairs, 0, None, 2)` keeps the adjacent pairs at positions
`(0,1), (2,3), ...`, silently ignoring a trailing odd element. -/
def swissPairings : List (Nat × String) → List (Nat × String × Nat × String)
  | (id1, n1) :: (id2, n2) :: rest => (id1, n1, id2, n2) :: swissPairings rest
  | _ => []

/-- The competitor ids mentioned in a `swissPairings` result, in order. -/
def swissIds (l : List (Nat × String × Nat × String)) : List Nat :=
  l.flatMap fun t => [t.1, t.2.2.1]

/-- `itertools.combinations(ids, 2)`: all 2-combinations in lexicographic
position order. -/
def combos : List Nat → List (Nat × Nat)
  | [] => []
  | x :: xs => (xs.map fun y => (x, y)) ++ combos xs

/-- `shuffle(pair)` on a two-element list: either order, chosen by a coin. -/
def orient (coin : Bool) (p : Nat × Nat) : Nat × Nat :=
  if coin then (p.2, p.1) else p

/-- Apply a fresh coin to each pair in a list (`shuffle(pair)` inside a loop). -/
def orientAll (c : Nat → Bool) : List (Nat × Nat) → List (Nat × Nat)
  | [] => []
  | p :: ps => orient (c 0) p :: orientAll (fun i => c (i + 1)) ps

/-- `round_robin(players)`: clear the store, register the names, then for each
2-combination of the assigned ids shuffle the pair and report it as a match.
Returns the final store, the recorded `(winner, loser)` outcomes in order, and
whether the infeasibility message was printed (never, for round robin). -/
structure RunResult where
  db : DB
  recorded : List (Nat × Nat)
  infeasible : Bool
deriving DecidableEq, Repr

def round_robin (names : List String) (coins : Nat → Bool) (db : DB) : RunResult :=
  let db1 := registerAll names (deletePlayers db)
  let ids := dbIds db1
  let outs := orientAll coins (combos ids)
  ⟨recordAll outs db1, outs, false⟩

/-- One round of the even-players strategy: `zip(ids[:mid], ids[mid:])` over
the (already shuffled) list `s`. -/
def evenPlayersRound (mid : Nat) (s : List Nat) : List (Nat × Nat) :=
  (s.take mid).zip (s.drop mid)

/-- The outcomes recorded by `even_players(ids, num_rounds)`: in each of
`num_rounds` iterations the ids are shuffled and position `i` of the first
half beats position `i` of the second half (the pair itself is NOT shuffled:
`reportMatch(*pair)` is called on the zip order directly). -/
def even_players_outcomes (ids : List Nat) (num_rounds : Nat)
    (shuffles : Nat → List Nat) : List (Nat × Nat) :=
  (List.range num_rounds).flatMap fun r => evenPlayersRound (ids.length / 2) (shuffles r)

/-- One iteration of the odd-players strategy: `zip(ids, ids[1:] + ids[:1])`
over the shuffled list `s`, each pair then shuffled by its own coin. -/
def evenRoundsIter (c : Nat → Bool) (s : List Nat) : List (Nat × Nat) :=
  orientAll c (s.zip (s.drop 1 ++ s.take 1))

/-- The outcomes recorded by `even_rounds(ids, num_rounds)`: `num_rounds // 2`
iterations, each shuffling the ids, pairing every id with its cyclic
successor, and shuffling each pair before reporting it. -/
def even_rounds_outcomes (ids : List Nat) (num_rounds : Nat)
    (shuffles : Nat → List Nat) (coins : Nat → Nat → Bool) : List (Nat × Nat) :=
  (List.range (num_rounds / 2)).flatMap fun r => evenRoundsIter (coins r) (shuffles r)

/-- `even_players(ids, num_rounds)` as a store transformer, also returning
the outcomes it reported. -/
def even_players (ids : List Nat) (num_rounds : Nat) (shuffles : Nat → List Nat)
    (db : DB) : DB × List (Nat × Nat) :=
  let outs := even_players_outcomes ids num_rounds shuffles
  (recordAll outs db, outs)

/-- `even_rounds(ids, num_rounds)` as a store transformer, also returning
the outcomes it reported. -/
def even_rounds (ids : List Nat) (num_rounds : Nat) (shuffles : Nat → List Nat)
    (coins : Nat → Nat → Bool) (db : DB) : DB × List (Nat × Nat) :=
  let outs := even_rounds_outcomes ids num_rounds shuffles coins
  (recordAll outs db, outs)

/-- `custom_tournament(players, num_rounds)`: clear the store, register the
names, fetch the assigned ids, then dispatch on parity; the odd-players ×
odd-rounds case only prints "impossible to arrange such a tournament"
(`infeasible := true`) and records nothing. -/
def custom_tournament (players : List String) (num_rounds : Nat)
    (shuffles : Nat → List Nat) (coins : Nat → Nat → Bool) (db : DB) : RunResult :=
  let db1 := registerAll players (deletePlayers db)
  let ids := dbIds db1
  if ids.length % 2 = 0 then
    let r := even_players ids num_rounds shuffles db1
    ⟨r.1, r.2, false⟩
  else if num_rounds % 2 = 0 then
    let r := even_rounds ids num_rounds shuffles coins db1
    ⟨r.1, r.2, false⟩
  else
    ⟨db1, [], true⟩

/-- The rows produced by registering `names` into an empty table whose serial
sequence stands at `k`. -/
def freshRecs : List String → Nat → List Rec
  | [], _ => []
  | nm :: rest, k => ⟨k, nm, 0, 0⟩ :: freshRecs rest (k + 1)

/-- Number of occurrences of id `x` across an outcome list, counting both the
winner and the loser slot (and both, twice, for a self-pair). -/
def occ (x : Nat) : List (Nat × Nat) → Nat
  | [] => 0
  | p :: l => (if x = p.1 then 1 else 0) + ((if x = p.2 then 1 else 0) + occ x l)

/-- Number of occurrences of id `x` in the winner slot of an outcome list. -/
def winOcc (x : Nat) : List (Nat × Nat) → Nat
  | [] => 0
  | p :: l => (if x = p.1 then 1 else 0) + winOcc x l

/-- How many entries of an outcome list are the unordered pair `{a, b}`. -/
def unorderedCount (a b : Nat) (l : List (Nat × Nat)) : Nat :=
  l.countP fun p => (p.1 == a && p.2 == b) || (p.1 == b && p.2 == a)

/-- Modelled from the spec (for comparison with the code's `even_players`):
"for each of `rounds` iterations, randomly shuffle the competitor list, split
it into halves, pair position `i` with position `i`", and "for every generated
pair, the Match Recorder is invoked once with a randomly chosen winner/loser
assignment" — i.e. the even-players strategy WITH a fresh per-pair coin
applied to each pair before recording. -/
def even_players_outcomes_drawSpec (ids : List Nat) (num_rounds : Nat)
    (shuffles : Nat → List Nat) (coins : Nat → Nat → Bool) : List (Nat × Nat) :=
  (List.range num_rounds).flatMap fun r =>
    orientAll (coins r) (evenPlayersRound (ids.length / 2) (shuffles r))

/-! ### Registration lemmas -/

theorem registerAll_eq (names : List String) (db : DB) :
    registerAll names db = ⟨db.standings ++ freshRecs names db.nextId, db.nextId + names.length⟩ := by
  induction names generalizing db with
  | nil => simp [registerAll, freshRecs]
  | cons nm rest ih =>
    show registerAll rest (registerPlayer nm db) = _
    rw [ih]
    simp [registerPlayer, freshRecs]
    omega

theorem freshRecs_length (names : List String) (k : Nat) :
    (freshRecs names k).length = names.length := by
  induction names generalizing k with
  | nil => rfl
  | cons nm rest ih => simp [freshRecs, ih]

theorem freshRecs_map_id (names : List String) (k : Nat) :
    (freshRecs names k).map (·.id) = List.range' k names.length := by
  induction names generalizing k with
  | nil => rfl
  | cons nm rest ih => simp [freshRecs, ih, List.range'_succ]

theorem freshRecs_zero (names : List String) (k : Nat) :
    ∀ r ∈ freshRecs names k, r.wins = 0 ∧ r.matchesPlayed = 0 := by
  induction names generalizing k with
  | nil => intro r hr; cases hr
  | cons nm rest ih =>
    intro r hr
    simp only [freshRecs, List.mem_cons] at hr
    rcases hr with rfl | hr
    · exact ⟨rfl, rfl⟩
    · exact ih _ r hr

/-! ### `reportMatch` / `recordAll` characterisation -/

theorem reportMatch_standings (w l : Nat) (db : DB) :
    (reportMatch w l db).standings = db.standings.map fun r =>
      { r with wins := r.wins + winOcc r.id [(w, l)],
               matchesPlayed := r.matchesPlayed + occ r.id [(w, l)] } := by
  simp only [reportMatch, List.map_map]
  apply List.map_congr_left
  intro r _
  rcases r with ⟨rid, rname, rwins, rmatches⟩
  simp only [Function.comp, winOcc, occ]
  by_cases hw : rid = w <;> by_cases hl : rid = l <;> by_cases hwl : w = l <;>
    simp_all <;> omega

theorem reportMatch_nextId (w l : Nat) (db : DB) :
    (reportMatch w l db).nextId = db.nextId := rfl

theorem occ_append (x : Nat) (l1 l2 : List (Nat × Nat)) :
    occ x (l1 ++ l2) = occ x l1 + occ x l2 := by
  induction l1 with
  | nil => simp [occ]
  | cons p ps ih => simp [occ, ih]; omega

theorem winOcc_append (x : Nat) (l1 l2 : List (Nat × Nat)) :
    winOcc x (l1 ++ l2) = winOcc x l1 + winOcc x l2 := by
  induction l1 with
  | nil => simp [winOcc]
  | cons p ps ih => simp [winOcc, ih]; omega

theorem recordAll_standings (outs : List (Nat × Nat)) (db : DB) :
    (recordAll outs db).standings = db.standings.map fun r =>
      { r with wins := r.wins + winOcc r.id outs,
               matchesPlayed := r.matchesPlayed + occ r.id outs } := by
  induction outs generalizing db with
  | nil =>
    exact (List.map_id db.standings).symm
  | cons p ps ih =>
    show (recordAll ps (reportMatch p.1 p.2 db)).standings = _
    rw [ih, reportMatch_standings, List.map_map]
    apply List.map_congr_left
    intro r _
    simp only [Function.comp_apply, occ, winOcc, Nat.add_zero, Rec.mk.injEq]
    refine ⟨by trivial, by trivial, ?_, ?_⟩ <;> split_ifs <;> omega

theorem recordAll_nextId (outs : List (Nat × Nat)) (db : DB) :
    (recordAll outs db).nextId = db.nextId := by
  induction outs generalizing db with
  | nil => rfl
  | cons p ps ih => exact ih (reportMatch p.1 p.2 db)

theorem dbIds_recordAll (outs : List (Nat × Nat)) (db : DB) :
    dbIds (recordAll outs db) = dbIds db := by
  simp [dbIds, recordAll_standings, List.map_map, Function.comp]

/-! ### Coin / orientation lemmas -/

theorem orientAll_length (c : Nat → Bool) (l : List (Nat × Nat)) :
    (orientAll c l).length = l.length := by
  induction l generalizing c with
  | nil => rfl
  | cons p ps ih => simp [orientAll, ih]

theorem occ_orient (x : Nat) (b : Bool) (p : Nat × Nat) (l : List (Nat × Nat)) :
    occ x (orient b p :: l) = occ x (p :: l) := by
  cases b <;> simp [orient, occ] <;> omega

theorem occ_orientAll (x : Nat) (c : Nat → Bool) (l : List (Nat × Nat)) :
    occ x (orientAll c l) = occ x l := by
  induction l generalizing c with
  | nil => rfl
  | cons p ps ih =>
    show occ x (orient (c 0) p :: orientAll _ ps) = _
    rw [occ_orient]
    simp [occ, ih]

theorem mem_orientAll (c : Nat → Bool) (l : List (Nat × Nat)) (q : Nat × Nat)
    (h : q ∈ orientAll c l) : q ∈ l ∨ (q.2, q.1) ∈ l := by
  induction l generalizing c with
  | nil => cases h
  | cons p ps ih =>
    rcases List.mem_cons.mp h with rfl | h
    · by_cases hb : c 0 = true
      · right; simp [orient, hb]
      · left; simp at hb; simp [orient, hb]
    · rcases ih _ h with h | h
      · exact Or.inl (List.mem_cons_of_mem _ h)
      · exact Or.inr (List.mem_cons_of_mem _ h)

theorem selfPairs_orientAll (c : Nat → Bool) (l : List (Nat × Nat)) :
    (orientAll c l).countP (fun q => q.1 == q.2) = l.countP (fun q => q.1 == q.2) := by
  induction l generalizing c with
  | nil => rfl
  | cons p ps ih =>
    show (orient (c 0) p :: orientAll _ ps).countP _ = _
    rw [List.countP_cons, List.countP_cons, ih]
    congr 1
    cases hb : c 0
    · rfl
    · have horient : orient true p = (p.2, p.1) := rfl
      rw [horient]
      simp only [beq_iff_eq]
      exact if_congr eq_comm rfl rfl

theorem unorderedCount_orientAll (a b : Nat) (c : Nat → Bool) (l : List (Nat × Nat)) :
    unorderedCount a b (orientAll c l) = unorderedCount a b l := by
  induction l generalizing c with
  | nil => rfl
  | cons p ps ih =>
    show unorderedCount a b (orient (c 0) p :: orientAll _ ps) = _
    unfold unorderedCount at *
    rw [List.countP_cons, List.countP_cons, ih]
    congr 1
    cases hb : c 0 <;> simp [orient]
    exact if_congr (by tauto) rfl rfl

theorem orientAll_flip (c : Nat → Bool) (l : List (Nat × Nat)) :
    orientAll (fun i => !(c i)) l = (orientAll c l).map fun p => (p.2, p.1) := by
  induction l generalizing c with
  | nil => rfl
  | cons p ps ih =>
    show orient (!(c 0)) p :: orientAll (fun i => !(c (i + 1))) ps =
      ((orient (c 0) p).2, (orient (c 0) p).1) ::
        List.map (fun p => (p.2, p.1)) (orientAll (fun i => c (i + 1)) ps)
    refine congrArg₂ List.cons ?_ (ih fun i => c (i + 1))
    cases hb : c 0 <;> simp [orient]

/-! ### Flattened-pair multiset lemmas -/

/-- The ids mentioned by an outcome list, with multiplicity. -/
def flatIds (l : List (Nat × Nat)) : List Nat :=
  l.flatMap fun p => [p.1, p.2]

theorem ifBeqFlip (a x : Nat) : (if (a == x) = true then 1 else 0) = (if x = a then 1 else 0) := by
  by_cases h : x = a
  · subst h; simp
  · have h2 : ¬a = x := fun hh => h hh.symm
    simp [h, h2]

theorem occ_eq_count (x : Nat) (l : List (Nat × Nat)) :
    occ x l = (flatIds l).count x := by
  induction l with
  | nil => rfl
  | cons p ps ih =>
    show (if x = p.1 then 1 else 0) + ((if x = p.2 then 1 else 0) + occ x ps) = _
    rw [ih]
    show _ = List.count x (p.1 :: p.2 :: flatIds ps)
    rw [List.count_cons, List.count_cons, ifBeqFlip, ifBeqFlip]
    omega

theorem flatIds_zip_perm (l1 l2 : List Nat) (h : l1.length = l2.length) :
    (flatIds (l1.zip l2)).Perm (l1 ++ l2) := by
  induction l1 generalizing l2 with
  | nil =>
    cases l2 with
    | nil => exact List.Perm.refl _
    | cons b bs => cases h
  | cons a as ih =>
    cases l2 with
    | nil => cases h
    | cons b bs =>
      have hlen : as.length = bs.length := by simpa using h
      show (a :: b :: flatIds (as.zip bs)).Perm (a :: (as ++ b :: bs))
      refine List.Perm.cons a (List.Perm.trans (List.Perm.cons b (ih bs hlen)) ?_)
      exact List.perm_middle.symm

theorem length_flatMap_const {α : Type} (lst : List α) (f : α → List (Nat × Nat)) (c : Nat)
    (h : ∀ r ∈ lst, (f r).length = c) : (lst.flatMap f).length = lst.length * c := by
  induction lst with
  | nil => simp
  | cons a as ih =>
    rw [List.flatMap_cons, List.length_append, h a (List.mem_cons_self a as),
      ih fun r hr => h r (List.mem_cons_of_mem a hr)]
    rw [List.length_cons]
    ring

theorem occ_flatMap_const {α : Type} (x : Nat) (lst : List α) (f : α → List (Nat × Nat)) (c : Nat)
    (h : ∀ r ∈ lst, occ x (f r) = c) : occ x (lst.flatMap f) = lst.length * c := by
  induction lst with
  | nil => simp [occ]
  | cons a as ih =>
    rw [List.flatMap_cons, occ_append, h a (List.mem_cons_self a as),
      ih fun r hr => h r (List.mem_cons_of_mem a hr)]
    rw [List.length_cons]
    ring

/-! ### Rotation (`ids[1:] + ids[:1]`) lemmas -/

theorem rot_perm (l : List Nat) : (l.drop 1 ++ l.take 1).Perm l := by
  refine List.Perm.trans List.perm_append_comm ?_
  rw [List.take_append_drop]

theorem rot_length (l : List Nat) : (l.drop 1 ++ l.take 1).length = l.length := by
  rw [List.length_append, List.length_drop, List.length_take]
  omega

/-! ### `combos` (itertools.combinations of size 2) lemmas -/

theorem combos_length (l : List Nat) : (combos l).length = l.length.choose 2 := by
  induction l with
  | nil => rfl
  | cons x xs ih =>
    show ((xs.map fun y => (x, y)) ++ combos xs).length = _
    rw [List.length_append, List.length_map, ih, List.length_cons,
      Nat.choose_succ_succ, Nat.choose_one_right]

theorem combos_mem (l : List Nat) (p : Nat × Nat) (h : p ∈ combos l) :
    p.1 ∈ l ∧ p.2 ∈ l := by
  induction l with
  | nil => cases h
  | cons x xs ih =>
    rcases List.mem_append.mp h with h | h
    · rcases List.mem_map.mp h with ⟨y, hy, rfl⟩
      exact ⟨List.mem_cons_self x xs, List.mem_cons_of_mem x hy⟩
    · rcases ih h with ⟨h1, h2⟩
      exact ⟨List.mem_cons_of_mem x h1, List.mem_cons_of_mem x h2⟩

theorem combos_ne (l : List Nat) (hnd : l.Nodup) (p : Nat × Nat) (h : p ∈ combos l) :
    p.1 ≠ p.2 := by
  induction l with
  | nil => cases h
  | cons x xs ih =>
    rcases List.mem_append.mp h with h | h
    · rcases List.mem_map.mp h with ⟨y, hy, rfl⟩
      intro he
      have he2 : x = y := he
      exact (List.nodup_cons.mp hnd).1 (by rw [he2]; exact hy)
    · exact ih (List.nodup_cons.mp hnd).2 h

theorem unorderedCount_combos_eq_zero (a b : Nat) (l : List Nat) (h : a ∉ l ∨ b ∉ l) :
    unorderedCount a b (combos l) = 0 := by
  refine List.countP_eq_zero.mpr ?_
  intro p hp
  rcases combos_mem l p hp with ⟨h1, h2⟩
  simp only [Bool.or_eq_true, Bool.and_eq_true, beq_iff_eq]
  rintro (⟨rfl, rfl⟩ | ⟨rfl, rfl⟩) <;> rcases h with h | h <;> exact h (by assumption)

theorem unorderedCount_combos_one (a b : Nat) (l : List Nat) (hnd : l.Nodup)
    (ha : a ∈ l) (hb : b ∈ l) (hab : a ≠ b) :
    unorderedCount a b (combos l) = 1 := by
  induction l with
  | nil => cases ha
  | cons x xs ih =>
    have hx := List.nodup_cons.mp hnd
    have happ : unorderedCount a b (combos (x :: xs)) =
        unorderedCount a b (xs.map fun y => (x, y)) + unorderedCount a b (combos xs) := by
      unfold unorderedCount
      exact List.countP_append _ _ _
    rw [happ]
    by_cases hxa : x = a
    · subst hxa
      have hbxs : b ∈ xs := by
        rcases List.mem_cons.mp hb with h | h
        · exact absurd h.symm hab
        · exact h
      have hmap : unorderedCount x b (xs.map fun y => (x, y)) = xs.count b := by
        unfold unorderedCount
        rw [List.countP_map]
        refine List.countP_congr ?_
        intro y _
        show ((x == x && (y == b)) || ((x == b) && (y == x))) = true ↔ (y == b) = true
        have h1 : (x == x) = true := by simp
        have h2 : (x == b) = false := by simp [hab]
        rw [h1, h2, Bool.true_and, Bool.false_and, Bool.or_false]
      rw [hmap, unorderedCount_combos_eq_zero x b xs (Or.inl hx.1),
        List.count_eq_one_of_mem hx.2 hbxs]
    · by_cases hxb : x = b
      · subst hxb
        have haxs : a ∈ xs := by
          rcases List.mem_cons.mp ha with h | h
          · exact absurd h fun hh => hxa hh.symm
          · exact h
        have hmap : unorderedCount a x (xs.map fun y => (x, y)) = xs.count a := by
          unfold unorderedCount
          rw [List.countP_map]
          refine List.countP_congr ?_
          intro y _
          show ((x == a && (y == x)) || ((x == x) && (y == a))) = true ↔ (y == a) = true
          have h1 : (x == x) = true := by simp
          have h2 : (x == a) = false := by simp [hxa]
          rw [h2, h1, Bool.false_and, Bool.true_and, Bool.false_or]
        rw [hmap, unorderedCount_combos_eq_zero a x xs (Or.inr hx.1),
          List.count_eq_one_of_mem hx.2 haxs]
      · have hmap : unorderedCount a b (xs.map fun y => (x, y)) = 0 := by
          unfold unorderedCount
          rw [List.countP_map]
          refine List.countP_eq_zero.mpr ?_
          intro y _
          show ¬((x == a && (y == b)) || ((x == b) && (y == a))) = true
          have h1 : (x == a) = false := by simp [hxa]
          have h2 : (x == b) = false := by simp [hxb]
          rw [h1, h2, Bool.false_and, Bool.false_and, Bool.or_false]
          exact Bool.false_ne_true
        have haxs : a ∈ xs := by
          rcases List.mem_cons.mp ha with h | h
          · exact absurd h fun hh => hxa hh.symm
          · exact h
        have hbxs : b ∈ xs := by
          rcases List.mem_cons.mp hb with h | h
          · exact absurd h fun hh => hxb hh.symm
          · exact h
        rw [hmap, ih hx.2 haxs hbxs]

/-! ### Swiss pairing lemmas -/

theorem twoStepInduction {α : Type} {motive : List α → Prop} (h0 : motive [])
    (h1 : ∀ a, motive [a])
    (hstep : ∀ a b l, motive l → motive (a :: b :: l)) : ∀ l, motive l
  | [] => h0
  | [a] => h1 a
  | a :: b :: l => hstep a b l (twoStepInduction h0 h1 hstep l)

theorem swissPairings_length (players : List (Nat × String)) :
    (swissPairings players).length = players.length / 2 := by
  induction players using twoStepInduction with
  | h0 => rfl
  | h1 a => obtain ⟨a1, a2⟩ := a; simp [swissPairings]
  | hstep a b rest ih =>
    obtain ⟨a1, a2⟩ := a
    obtain ⟨b1, b2⟩ := b
    show ((a1, a2, b1, b2) :: swissPairings rest).length = (rest.length + 1 + 1) / 2
    rw [List.length_cons, ih]
    omega

theorem swissIds_perm (players : List (Nat × String)) :
    (swissIds (swissPairings players)).Perm
      ((players.take (2 * (players.length / 2))).map Prod.fst) := by
  induction players using twoStepInduction with
  | h0 => exact List.Perm.refl _
  | h1 a =>
    obtain ⟨a1, a2⟩ := a
    have h12 : 2 * ([(a1, a2)].length / 2) = 0 := by simp
    rw [h12]
    exact List.Perm.refl _
  | hstep a b rest ih =>
    obtain ⟨a1, a2⟩ := a
    obtain ⟨b1, b2⟩ := b
    have harith : 2 * (((a1, a2) :: (b1, b2) :: rest).length / 2) =
        2 * (rest.length / 2) + 1 + 1 := by
      simp only [List.length_cons]
      omega
    rw [harith]
    show (a1 :: b1 :: swissIds (swissPairings rest)).Perm
      ((((a1, a2) :: (b1, b2) :: rest).take (2 * (rest.length / 2) + 1 + 1)).map Prod.fst)
    rw [List.take_succ_cons, List.take_succ_cons, List.map_cons, List.map_cons]
    exact List.Perm.cons a1 (List.Perm.cons b1 ih)

theorem swissPairings_getD (players : List (Nat × String)) (k : Nat)
    (h : 2 * k + 1 < players.length) :
    (swissPairings players).getD k (0, "", 0, "") =
      ((players.getD (2 * k) (0, "")).1, (players.getD (2 * k) (0, "")).2,
       (players.getD (2 * k + 1) (0, "")).1, (players.getD (2 * k + 1) (0, "")).2) := by
  induction players using twoStepInduction generalizing k with
  | h0 => simp at h
  | h1 a => obtain ⟨a1, a2⟩ := a; simp at h
  | hstep a b rest ih =>
    obtain ⟨a1, a2⟩ := a
    obtain ⟨b1, b2⟩ := b
    cases k with
    | zero => rfl
    | succ k =>
      have h2 : 2 * k + 1 < rest.length := by
        simp only [List.length_cons] at h
        omega
      have e1 : 2 * (k + 1) = 2 * k + 1 + 1 := by omega
      rw [e1]
      show (swissPairings rest).getD k (0, "", 0, "") = _
      rw [ih k h2]
      simp only [List.getD_cons_succ]

theorem swissPairings_ne (players : List (Nat × String))
    (hnd : (players.map Prod.fst).Nodup) :
    ∀ q ∈ swissPairings players, q.1 ≠ q.2.2.1 := by
  induction players using twoStepInduction with
  | h0 => intro q hq; cases hq
  | h1 a => intro q hq; cases hq
  | hstep a b rest ih =>
    obtain ⟨a1, a2⟩ := a
    obtain ⟨b1, b2⟩ := b
    intro q hq
    simp only [List.map_cons, List.nodup_cons] at hnd
    rcases List.mem_cons.mp hq with rfl | hq
    · intro he
      have he2 : a1 = b1 := he
      exact hnd.1 (by rw [he2]; exact List.mem_cons_self b1 _)
    · exact ih hnd.2.2 q hq

/-! ### Even-players round lemmas -/

theorem evenPlayersRound_length (s : List Nat) (hev : s.length % 2 = 0) :
    (evenPlayersRound (s.length / 2) s).length = s.length / 2 := by
  unfold evenPlayersRound
  rw [List.length_zip, List.length_take, List.length_drop]
  omega

theorem evenPlayersRound_flat_perm (s : List Nat) (hev : s.length % 2 = 0) :
    (flatIds (evenPlayersRound (s.length / 2) s)).Perm s := by
  unfold evenPlayersRound
  refine List.Perm.trans (flatIds_zip_perm _ _ ?_) ?_
  · rw [List.length_take, List.length_drop]
    omega
  · rw [List.take_append_drop]

theorem evenPlayersRound_occ (s : List Nat) (hev : s.length % 2 = 0) (x : Nat) :
    occ x (evenPlayersRound (s.length / 2) s) = s.count x := by
  rw [occ_eq_count, (evenPlayersRound_flat_perm s hev).count_eq]

theorem evenPlayersRound_ne (s : List Nat) (hnd : s.Nodup) (p : Nat × Nat)
    (hp : p ∈ evenPlayersRound (s.length / 2) s) : p.1 ≠ p.2 := by
  have hmem := List.of_mem_zip hp
  have hdisj : (s.take (s.length / 2)).Disjoint (s.drop (s.length / 2)) :=
    (List.nodup_append.mp (by rwa [List.take_append_drop])).2.2
  intro he
  exact hdisj hmem.1 (he ▸ hmem.2)

/-! ### Odd-players (cyclic) iteration lemmas -/

theorem zip_rot_flat_perm (s : List Nat) :
    (flatIds (s.zip (s.drop 1 ++ s.take 1))).Perm (s ++ s) := by
  refine List.Perm.trans (flatIds_zip_perm _ _ (rot_length s).symm) ?_
  exact List.Perm.append (List.Perm.refl s) (rot_perm s)

theorem evenRoundsIter_occ (c : Nat → Bool) (s : List Nat) (x : Nat) :
    occ x (evenRoundsIter c s) = 2 * s.count x := by
  unfold evenRoundsIter
  rw [occ_orientAll, occ_eq_count, (zip_rot_flat_perm s).count_eq, List.count_append]
  omega

theorem zip_rot_ne (s : List Nat) (hnd : s.Nodup) (h2 : 2 ≤ s.length)
    (q : Nat × Nat) (hq : q ∈ s.zip (s.drop 1 ++ s.take 1)) : q.1 ≠ q.2 := by
  rcases List.mem_iff_getElem?.mp hq with ⟨i, hget⟩
  rcases List.getElem?_zip_eq_some.mp hget with ⟨hg1, hg2⟩
  have hi : i < s.length := by
    by_contra hcon
    rw [List.getElem?_eq_none (by omega)] at hg1
    cases hg1
  intro he
  by_cases hlast : i + 1 < s.length
  · rw [List.getElem?_append_left (by rw [List.length_drop]; omega)] at hg2
    have hg2b : s[1 + i]? = some q.2 := by
      rw [← List.getElem?_drop]
      exact hg2
    have hii : i = 1 + i := by
      refine List.getElem?_inj hi hnd ?_
      rw [hg1, hg2b, he]
    omega
  · have hdl : (s.drop 1).length ≤ i := by rw [List.length_drop]; omega
    rw [List.getElem?_append_right hdl, List.length_drop] at hg2
    have hz : i - (s.length - 1) = 0 := by omega
    rw [hz, List.getElem?_take] at hg2
    have hg2b : s[0]? = some q.2 := by
      simpa using hg2
    have hii : i = 0 := by
      refine List.getElem?_inj hi hnd ?_
      rw [hg1, hg2b, he]
    omega

/-! ### Claim C2 -/

/-- C2: for every pair of competitor ids `(winner, loser)`, one call to
`reportMatch` adds 1 to the winner's wins and matches, adds 1 to the loser's
matches, and changes no other standing record (and does not touch the serial
sequence).  Stated as an exact frame condition on the whole standings list:
every row with the winner's id gains a win and a match, every row with the
loser's id gains a match, and every other row is returned unchanged. -/
theorem claim_C2 (winner loser : Nat) (db : DB) (hne : winner ≠ loser) :
    (reportMatch winner loser db).standings = db.standings.map (fun r =>
      if r.id = winner then { r with wins := r.wins + 1, matchesPlayed := r.matchesPlayed + 1 }
      else if r.id = loser then { r with matchesPlayed := r.matchesPlayed + 1 }
      else r) ∧ (reportMatch winner loser db).nextId = db.nextId := by
  constructor
  · rw [reportMatch_standings]
    apply List.map_congr_left
    intro r _
    have hne2 : ¬loser = winner := fun h => hne h.symm
    by_cases hw : r.id = winner <;> by_cases hl : r.id = loser
    · exact absurd (hw.symm.trans hl) hne
    · simp [winOcc, occ, hw, hl, hne, hne2]
    · simp [winOcc, occ, hw, hl, hne, hne2]
    · simp [winOcc, occ, hw, hl, hne, hne2]
  · rfl

/-- A concrete three-row store used to witness the claims about
`reportMatch`. -/
def dbW : DB := ⟨[⟨1, "A", 0, 0⟩, ⟨2, "B", 1, 1⟩, ⟨3, "C", 0, 2⟩], 4⟩

theorem claim_C2_witness :
    (1 : Nat) ≠ 2 ∧
    ((reportMatch 1 2 dbW).standings = dbW.standings.map (fun r =>
      if r.id = 1 then { r with wins := r.wins + 1, matchesPlayed := r.matchesPlayed + 1 }
      else if r.id = 2 then { r with matchesPlayed := r.matchesPlayed + 1 }
      else r) ∧ (reportMatch 1 2 dbW).nextId = dbW.nextId) :=
  ⟨by decide, claim_C2 1 2 dbW (by decide)⟩

/-! ### Characterisations of the two drivers -/

theorem db1_eq (names : List String) (db : DB) :
    registerAll names (deletePlayers db) =
      ⟨freshRecs names db.nextId, db.nextId + names.length⟩ := by
  rw [registerAll_eq]
  simp [deletePlayers]

theorem dbIds_fresh (names : List String) (k m : Nat) :
    dbIds ⟨freshRecs names k, m⟩ = List.range' k names.length :=
  freshRecs_map_id names k

theorem round_robin_eq (names : List String) (coins : Nat → Bool) (db : DB) :
    round_robin names coins db =
      ⟨recordAll (orientAll coins (combos (List.range' db.nextId names.length)))
         ⟨freshRecs names db.nextId, db.nextId + names.length⟩,
       orientAll coins (combos (List.range' db.nextId names.length)), false⟩ := by
  simp only [round_robin, db1_eq, dbIds_fresh]

theorem custom_tournament_eq (names : List String) (rounds : Nat) (sh : Nat → List Nat)
    (co : Nat → Nat → Bool) (db : DB) :
    custom_tournament names rounds sh co db =
      if names.length % 2 = 0 then
        ⟨recordAll (even_players_outcomes (List.range' db.nextId names.length) rounds sh)
           ⟨freshRecs names db.nextId, db.nextId + names.length⟩,
         even_players_outcomes (List.range' db.nextId names.length) rounds sh, false⟩
      else if rounds % 2 = 0 then
        ⟨recordAll (even_rounds_outcomes (List.range' db.nextId names.length) rounds sh co)
           ⟨freshRecs names db.nextId, db.nextId + names.length⟩,
         even_rounds_outcomes (List.range' db.nextId names.length) rounds sh co, false⟩
      else ⟨⟨freshRecs names db.nextId, db.nextId + names.length⟩, [], true⟩ := by
  have h3 : (List.range' db.nextId names.length).length = names.length := by simp
  simp only [custom_tournament, even_players, even_rounds, db1_eq, dbIds_fresh, h3]

/-! ### Claim C3 -/

/-- C3: for every even-length standings list with distinct ids (as fetched
rank-ordered by the store; sortedness is irrelevant to the conclusion, so the
theorem does not assume it), `swissPairings` returns exactly `n/2` pairs, every
competitor id appears in exactly one pair, and the `k`-th returned pair joins
the entries at input positions `2k` and `2k+1`. -/
theorem claim_C3 (players : List (Nat × String)) (x k : Nat)
    (heven : players.length % 2 = 0) (hnd : (players.map Prod.fst).Nodup)
    (hx : x ∈ players.map Prod.fst) (hk : 2 * k + 1 < players.length) :
    (swissPairings players).length = players.length / 2 ∧
    (swissIds (swissPairings players)).count x = 1 ∧
    (swissPairings players).getD k (0, "", 0, "") =
      ((players.getD (2 * k) (0, "")).1, (players.getD (2 * k) (0, "")).2,
       (players.getD (2 * k + 1) (0, "")).1, (players.getD (2 * k + 1) (0, "")).2) := by
  refine ⟨swissPairings_length players, ?_, swissPairings_getD players k hk⟩
  have hperm := swissIds_perm players
  have htake : players.take (2 * (players.length / 2)) = players := by
    have h2 : 2 * (players.length / 2) = players.length := by omega
    rw [h2, List.take_length]
  rw [htake] at hperm
  rw [hperm.count_eq]
  exact List.count_eq_one_of_mem hnd hx

/-- The concrete rank-ordered standings used to witness C3. -/
def playersW : List (Nat × String) := [(1, "a"), (2, "b"), (3, "c"), (4, "d")]

theorem claim_C3_witness :
    playersW.length % 2 = 0 ∧ (playersW.map Prod.fst).Nodup ∧
    3 ∈ playersW.map Prod.fst ∧ 2 * 1 + 1 < playersW.length ∧
    ((swissPairings playersW).length = playersW.length / 2 ∧
     (swissIds (swissPairings playersW)).count 3 = 1 ∧
     (swissPairings playersW).getD 1 (0, "", 0, "") =
       ((playersW.getD (2 * 1) (0, "")).1, (playersW.getD (2 * 1) (0, "")).2,
        (playersW.getD (2 * 1 + 1) (0, "")).1, (playersW.getD (2 * 1 + 1) (0, "")).2)) :=
  ⟨by decide, by decide, by decide, by decide,
   claim_C3 playersW 3 1 (by decide) (by decide) (by decide) (by decide)⟩

/-! ### Claim C4 -/

/-- C4: `round_robin` records exactly `n(n-1)/2` outcomes, none of them a
self-pair, and every unordered pair of distinct registered ids is recorded
exactly once (regardless of the per-pair winner/loser coin). -/
theorem claim_C4 (names : List String) (coins : Nat → Bool) (db : DB) (a b : Nat)
    (ha : a ∈ dbIds (round_robin names coins db).db)
    (hb : b ∈ dbIds (round_robin names coins db).db) (hab : a ≠ b) :
    (round_robin names coins db).recorded.length = names.length * (names.length - 1) / 2 ∧
    (round_robin names coins db).recorded.countP (fun p => p.1 == p.2) = 0 ∧
    unorderedCount a b (round_robin names coins db).recorded = 1 := by
  have hnd : (List.range' db.nextId names.length).Nodup :=
    List.nodup_range' db.nextId names.length 1 (by omega)
  rw [round_robin_eq] at ha hb ⊢
  simp only [dbIds_recordAll, dbIds_fresh] at ha hb
  refine ⟨?_, ?_, ?_⟩
  · rw [orientAll_length, combos_length]
    simp [Nat.choose_two_right]
  · rw [selfPairs_orientAll]
    refine List.countP_eq_zero.mpr ?_
    intro p hp
    have hne := combos_ne _ hnd p hp
    simp [hne]
  · rw [unorderedCount_orientAll]
    exact unorderedCount_combos_one a b _ hnd ha hb hab

theorem claim_C4_witness :
    0 ∈ dbIds (round_robin ["x", "y", "z"] (fun _ => false) ⟨[], 0⟩).db ∧
    2 ∈ dbIds (round_robin ["x", "y", "z"] (fun _ => false) ⟨[], 0⟩).db ∧
    (0 : Nat) ≠ 2 ∧
    ((round_robin ["x", "y", "z"] (fun _ => false) ⟨[], 0⟩).recorded.length = 3 * (3 - 1) / 2 ∧
     (round_robin ["x", "y", "z"] (fun _ => false) ⟨[], 0⟩).recorded.countP
       (fun p => p.1 == p.2) = 0 ∧
     unorderedCount 0 2 (round_robin ["x", "y", "z"] (fun _ => false) ⟨[], 0⟩).recorded = 1) :=
  ⟨by decide, by decide, by decide,
   claim_C4 ["x", "y", "z"] (fun _ => false) ⟨[], 0⟩ 0 2 (by decide) (by decide) (by decide)⟩

/-! ### Claim C7 -/

/-- C7 counterexample: on an odd-length standings list `swissPairings` does
NOT surface any error: it returns an ordinary pairing list that silently
omits the last-ranked competitor (id 3 appears nowhere in the output).  In
the source the function is total and has no error path at all. -/
theorem claim_C7_cex :
    swissPairings [(1, "a"), (2, "b"), (3, "c")] = [(1, "a", 2, "b")] ∧
    3 ∉ swissIds (swissPairings [(1, "a"), (2, "b"), (3, "c")]) := by
  constructor
  · rfl
  · decide

/-- C7 amended: for every odd-length standings list, `swissPairings` silently
drops the last-ranked entry rather than surfacing an error: it returns
`⌊n/2⌋` pairs whose ids are exactly the ids of the first `n-1` entries. -/
theorem claim_C7_amended (players : List (Nat × String))
    (hodd : players.length % 2 = 1) :
    (swissPairings players).length = players.length / 2 ∧
    (swissIds (swissPairings players)).Perm (players.dropLast.map Prod.fst) := by
  refine ⟨swissPairings_length players, ?_⟩
  have hperm := swissIds_perm players
  have h2 : 2 * (players.length / 2) = players.length - 1 := by omega
  rw [h2] at hperm
  rw [List.dropLast_eq_take]
  exact hperm

theorem claim_C7_amended_witness :
    ([(1, "a"), (2, "b"), (3, "c")] : List (Nat × String)).length % 2 = 1 ∧
    ((swissPairings [(1, "a"), (2, "b"), (3, "c")]).length =
      ([(1, "a"), (2, "b"), (3, "c")] : List (Nat × String)).length / 2 ∧
     (swissIds (swissPairings [(1, "a"), (2, "b"), (3, "c")])).Perm
       (([(1, "a"), (2, "b"), (3, "c")] : List (Nat × String)).dropLast.map Prod.fst)) :=
  ⟨by decide, claim_C7_amended [(1, "a"), (2, "b"), (3, "c")] (by decide)⟩

/-! ### Claim C1 -/

/-- A store holding one pre-existing competitor with a non-trivial record,
used to exhibit the destructive registration effect of the schedulers. -/
def dbZ : DB := ⟨[⟨0, "Z", 5, 7⟩], 1⟩

/-- C1 counterexample: for 3 competitors and 3 rounds the scheduler does
report the infeasible configuration and records zero outcomes, but it does
NOT leave the standings store unchanged: the pre-existing competitor (id 0)
has been removed and the three supplied names registered (ids 1, 2, 3), so
the claim's "no competitor registered, removed, or modified" part is false. -/
theorem claim_C1_cex :
    (custom_tournament ["A", "B", "C"] 3 (fun _ => []) (fun _ _ => false) dbZ).infeasible
        = true ∧
    (custom_tournament ["A", "B", "C"] 3 (fun _ => []) (fun _ _ => false) dbZ).recorded = [] ∧
    (custom_tournament ["A", "B", "C"] 3 (fun _ => []) (fun _ _ => false) dbZ).db.standings.map
        (·.id) ≠ dbZ.standings.map (·.id) := by
  refine ⟨rfl, rfl, ?_⟩
  decide

/-- C1 amended: for every competitor-name list of odd length and every odd
round count, `custom_tournament` reports the infeasible configuration and
records zero outcomes — but the standings store is not left unchanged: before
the feasibility check it is cleared and re-seeded with fresh zero-score
records for the supplied names. -/
theorem claim_C1_amended (names : List String) (rounds : Nat) (sh : Nat → List Nat)
    (co : Nat → Nat → Bool) (db : DB)
    (hodd : names.length % 2 = 1) (hro : rounds % 2 = 1) :
    (custom_tournament names rounds sh co db).infeasible = true ∧
    (custom_tournament names rounds sh co db).recorded = [] ∧
    (custom_tournament names rounds sh co db).db.standings = freshRecs names db.nextId := by
  rw [custom_tournament_eq, if_neg (by omega), if_neg (by omega)]
  exact ⟨rfl, rfl, rfl⟩

theorem claim_C1_amended_witness :
    (["A", "B", "C"] : List String).length % 2 = 1 ∧ (3 : Nat) % 2 = 1 ∧
    ((custom_tournament ["A", "B", "C"] 3 (fun _ => []) (fun _ _ => false) dbZ).infeasible
        = true ∧
     (custom_tournament ["A", "B", "C"] 3 (fun _ => []) (fun _ _ => false) dbZ).recorded = [] ∧
     (custom_tournament ["A", "B", "C"] 3 (fun _ => []) (fun _ _ => false) dbZ).db.standings
        = freshRecs ["A", "B", "C"] dbZ.nextId) :=
  ⟨by decide, by decide,
   claim_C1_amended ["A", "B", "C"] 3 (fun _ => []) (fun _ _ => false) dbZ
     (by decide) (by decide)⟩

/-! ### Claim C10 -/

/-- C10: both drivers first delete all previously registered competitors and
register the supplied names afresh, so pre-existing standings are destroyed —
even when the configuration is rejected as infeasible.  Stated as: (i) and
(ii) the result of either driver is identical to its result on a store whose
standings were already empty (the prior standings have no influence at all);
(iii) in the infeasible case the final standings are nevertheless the freshly
registered zero-score records for the supplied names. -/
theorem claim_C10 (names : List String) (rounds : Nat) (sh : Nat → List Nat)
    (co : Nat → Nat → Bool) (rco : Nat → Bool) (db : DB) :
    custom_tournament names rounds sh co db =
      custom_tournament names rounds sh co ⟨[], db.nextId⟩ ∧
    round_robin names rco db = round_robin names rco ⟨[], db.nextId⟩ ∧
    (names.length % 2 = 1 → rounds % 2 = 1 →
      (custom_tournament names rounds sh co db).db.standings = freshRecs names db.nextId) := by
  refine ⟨?_, ?_, ?_⟩
  · rw [custom_tournament_eq, custom_tournament_eq]
  · rw [round_robin_eq, round_robin_eq]
  · intro hodd hro
    rw [custom_tournament_eq, if_neg (by omega), if_neg (by omega)]

theorem claim_C10_witness :
    (custom_tournament ["A", "B", "C"] 3 (fun _ => []) (fun _ _ => false) dbZ =
      custom_tournament ["A", "B", "C"] 3 (fun _ => []) (fun _ _ => false) ⟨[], dbZ.nextId⟩ ∧
    round_robin ["A", "B", "C"] (fun _ => false) dbZ =
      round_robin ["A", "B", "C"] (fun _ => false) ⟨[], dbZ.nextId⟩ ∧
    ((["A", "B", "C"] : List String).length % 2 = 1 → (3 : Nat) % 2 = 1 →
      (custom_tournament ["A", "B", "C"] 3 (fun _ => []) (fun _ _ => false) dbZ).db.standings
        = freshRecs ["A", "B", "C"] dbZ.nextId)) :=
  claim_C10 ["A", "B", "C"] 3 (fun _ => []) (fun _ _ => false) (fun _ => false) dbZ

/-! ### Claim C5 -/

/-- C5: for an even competitor count and any positive round count,
`custom_tournament` records exactly `rounds × n/2` outcomes, and every
competitor ends with exactly `rounds` matches played.  The shuffle stream is
constrained to permute the registered ids, which is what `random.shuffle`
does. -/
theorem claim_C5 (names : List String) (rounds : Nat) (sh : Nat → List Nat)
    (co : Nat → Nat → Bool) (db : DB) (rec : Rec)
    (heven : names.length % 2 = 0) (hpos : 0 < rounds)
    (hsh : ∀ r, (sh r).Perm (List.range' db.nextId names.length))
    (hrec : rec ∈ (custom_tournament names rounds sh co db).db.standings) :
    (custom_tournament names rounds sh co db).recorded.length
        = rounds * (names.length / 2) ∧
    rec.matchesPlayed = rounds := by
  rw [custom_tournament_eq, if_pos heven] at hrec ⊢
  have hlen_ids : (List.range' db.nextId names.length).length = names.length := by simp
  have hnd : (List.range' db.nextId names.length).Nodup :=
    List.nodup_range' db.nextId names.length 1 (by omega)
  have hlen_r : ∀ r, (sh r).length = names.length := fun r => by
    rw [(hsh r).length_eq, hlen_ids]
  have hmid : ∀ r, (List.range' db.nextId names.length).length / 2 = (sh r).length / 2 :=
    fun r => by rw [hlen_ids, hlen_r r]
  constructor
  · show (even_players_outcomes _ rounds sh).length = _
    unfold even_players_outcomes
    rw [length_flatMap_const _ _ (names.length / 2) ?_, List.length_range]
    intro r _
    rw [hmid r, evenPlayersRound_length _ (by rw [hlen_r r]; exact heven), hlen_r r]
  · simp only [recordAll_standings] at hrec
    rcases List.mem_map.mp hrec with ⟨r0, hr0, rfl⟩
    have hzero := (freshRecs_zero names db.nextId r0 hr0).2
    have hid : r0.id ∈ List.range' db.nextId names.length := by
      rw [← freshRecs_map_id names db.nextId]
      exact List.mem_map_of_mem _ hr0
    show r0.matchesPlayed + occ r0.id (even_players_outcomes _ rounds sh) = rounds
    rw [hzero]
    unfold even_players_outcomes
    rw [occ_flatMap_const _ _ _ 1 ?_, List.length_range]
    · omega
    · intro r _
      rw [hmid r, evenPlayersRound_occ _ (by rw [hlen_r r]; exact heven),
        (hsh r).count_eq, List.count_eq_one_of_mem hnd hid]

theorem claim_C5_witness :
    (["A", "B", "C", "D"] : List String).length % 2 = 0 ∧ (0 : Nat) < 3 ∧
    (∀ r : Nat, ((fun _ => [10, 11, 12, 13] : Nat → List Nat) r).Perm
      (List.range' (10 : Nat) (["A", "B", "C", "D"] : List String).length)) ∧
    (⟨11, "B", 3, 3⟩ : Rec) ∈ (custom_tournament ["A", "B", "C", "D"] 3
      (fun _ => [10, 11, 12, 13]) (fun _ _ => false) ⟨[], 10⟩).db.standings ∧
    ((custom_tournament ["A", "B", "C", "D"] 3 (fun _ => [10, 11, 12, 13])
        (fun _ _ => false) ⟨[], 10⟩).recorded.length
        = 3 * ((["A", "B", "C", "D"] : List String).length / 2) ∧
     (⟨11, "B", 3, 3⟩ : Rec).matchesPlayed = 3) :=
  ⟨by decide, by decide,
   fun r => by
     show ([10, 11, 12, 13] : List Nat).Perm (List.range' 10 4)
     decide,
   by decide,
   claim_C5 ["A", "B", "C", "D"] 3 (fun _ => [10, 11, 12, 13]) (fun _ _ => false)
     ⟨[], 10⟩ ⟨11, "B", 3, 3⟩ (by decide) (by decide)
     (fun r => by
       show ([10, 11, 12, 13] : List Nat).Perm (List.range' 10 4)
       decide)
     (by decide)⟩

/-! ### Claim C6 -/

/-- C6: for an odd competitor count and an even positive round count,
`custom_tournament` takes the odd-players strategy and every competitor ends
with exactly `rounds` matches played; moreover each of the `rounds/2`
iterations contributes exactly two match participations per competitor. -/
theorem claim_C6 (names : List String) (rounds : Nat) (sh : Nat → List Nat)
    (co : Nat → Nat → Bool) (db : DB) (rec : Rec) (r : Nat)
    (hodd : names.length % 2 = 1) (hre : rounds % 2 = 0) (hpos : 0 < rounds)
    (hsh : ∀ i, (sh i).Perm (List.range' db.nextId names.length))
    (hrec : rec ∈ (custom_tournament names rounds sh co db).db.standings)
    (hr : r < rounds / 2) :
    rec.matchesPlayed = rounds ∧
    occ rec.id (evenRoundsIter (co r) (sh r)) = 2 := by
  rw [custom_tournament_eq, if_neg (by omega), if_pos hre] at hrec
  have hlen_ids : (List.range' db.nextId names.length).length = names.length := by simp
  have hnd : (List.range' db.nextId names.length).Nodup :=
    List.nodup_range' db.nextId names.length 1 (by omega)
  simp only [recordAll_standings] at hrec
  rcases List.mem_map.mp hrec with ⟨r0, hr0, rfl⟩
  have hzero := (freshRecs_zero names db.nextId r0 hr0).2
  have hid : r0.id ∈ List.range' db.nextId names.length := by
    rw [← freshRecs_map_id names db.nextId]
    exact List.mem_map_of_mem _ hr0
  have hocc : ∀ i, occ r0.id (evenRoundsIter (co i) (sh i)) = 2 := by
    intro i
    rw [evenRoundsIter_occ, (hsh i).count_eq, List.count_eq_one_of_mem hnd hid]
  constructor
  · show r0.matchesPlayed + occ r0.id (even_rounds_outcomes _ rounds sh co) = rounds
    rw [hzero]
    unfold even_rounds_outcomes
    rw [occ_flatMap_const _ _ _ 2 (fun i _ => hocc i), List.length_range]
    omega
  · exact hocc r

theorem claim_C6_witness :
    (["A", "B", "C"] : List String).length % 2 = 1 ∧ (4 : Nat) % 2 = 0 ∧ (0 : Nat) < 4 ∧
    (∀ i : Nat, ((fun _ => [20, 21, 22] : Nat → List Nat) i).Perm
      (List.range' (20 : Nat) (["A", "B", "C"] : List String).length)) ∧
    (⟨21, "B", 2, 4⟩ : Rec) ∈ (custom_tournament ["A", "B", "C"] 4
      (fun _ => [20, 21, 22]) (fun _ _ => false) ⟨[], 20⟩).db.standings ∧
    1 < (4 : Nat) / 2 ∧
    ((⟨21, "B", 2, 4⟩ : Rec).matchesPlayed = 4 ∧
     occ (⟨21, "B", 2, 4⟩ : Rec).id
       (evenRoundsIter ((fun _ _ => false : Nat → Nat → Bool) 1)
         ((fun _ => [20, 21, 22] : Nat → List Nat) 1)) = 2) :=
  ⟨by decide, by decide, by decide,
   fun i => by
     show ([20, 21, 22] : List Nat).Perm (List.range' 20 3)
     decide,
   by decide, by decide,
   claim_C6 ["A", "B", "C"] 4 (fun _ => [20, 21, 22]) (fun _ _ => false)
     ⟨[], 20⟩ ⟨21, "B", 2, 4⟩ 1 (by decide) (by decide) (by decide)
     (fun i => by
       show ([20, 21, 22] : List Nat).Perm (List.range' 20 3)
       decide)
     (by decide) (by decide)⟩

/-! ### Claim C8 -/

/-- Bridge: when every pair in the list joins two distinct ids, the number of
pairings an id appears in equals its number of slot occurrences. -/
theorem countP_contains_eq_occ (x : Nat) (l : List (Nat × Nat))
    (h : ∀ q ∈ l, q.1 ≠ q.2) :
    l.countP (fun q => q.1 == x || q.2 == x) = occ x l := by
  induction l with
  | nil => rfl
  | cons p ps ih =>
    have hp := h p (List.mem_cons_self p ps)
    rw [List.countP_cons, ih fun q hq => h q (List.mem_cons_of_mem p hq)]
    show occ x ps + _ = (if x = p.1 then 1 else 0) + ((if x = p.2 then 1 else 0) + occ x ps)
    by_cases h1 : x = p.1 <;> by_cases h2 : x = p.2
    · exact absurd (h1.symm.trans h2) hp
    · have e1 : (p.1 == x) = true := beq_iff_eq.mpr h1.symm
      have hb : (p.1 == x || p.2 == x) = true := by rw [e1]; simp
      rw [if_pos hb, if_pos h1, if_neg h2]
      omega
    · have e2 : (p.2 == x) = true := beq_iff_eq.mpr h2.symm
      have hb : (p.1 == x || p.2 == x) = true := by rw [e2]; simp
      rw [if_pos hb, if_neg h1, if_pos h2]
      omega
    · have e1 : (p.1 == x) = false := beq_eq_false_iff_ne.mpr fun hh => h1 hh.symm
      have e2 : (p.2 == x) = false := beq_eq_false_iff_ne.mpr fun hh => h2 hh.symm
      have hb : ¬((p.1 == x || p.2 == x) = true) := by
        rw [e1, e2]
        simp
      rw [if_neg hb, if_neg h1, if_neg h2]
      omega

/-- C8 counterexample: one round's output of the odd-players generator
(`even_rounds` with ids `[1,2,3]` and 2 requested rounds is a single
iteration) is the cyclic list `[(1,2), (2,3), (3,1)]`, in which competitor 2
appears in TWO pairings — refuting "within a single round's output, every
competitor id appears in at most one pairing". -/
theorem claim_C8_cex :
    even_rounds_outcomes [1, 2, 3] 2 (fun _ => [1, 2, 3]) (fun _ _ => false)
        = [(1, 2), (2, 3), (3, 1)] ∧
    ¬((even_rounds_outcomes [1, 2, 3] 2 (fun _ => [1, 2, 3]) (fun _ _ => false)).countP
        (fun p => p.1 == 2 || p.2 == 2) ≤ 1) := by
  constructor
  · rfl
  · decide

/-- C8 amended: pairings from `swissPairings` and from an `even_players`
round do consist of two distinct ids with each id in at most one pairing
(exactly one when the count is even and, for the shuffled round, the id is
present); but one iteration of the odd-players generator (`even_rounds`)
instead emits `n` pairings in which every present id appears exactly twice
(its pairs still join distinct ids whenever the list has at least two
elements). -/
theorem claim_C8_amended (players : List (Nat × String)) (x : Nat) (s : List Nat) (y : Nat)
    (t : List Nat) (c : Nat → Bool) (z : Nat)
    (hndp : (players.map Prod.fst).Nodup)
    (hsnd : s.Nodup) (hsev : s.length % 2 = 0) (hy : y ∈ s)
    (htnd : t.Nodup) (ht2 : 2 ≤ t.length) (hz : z ∈ t) :
    (∀ q ∈ swissPairings players, q.1 ≠ q.2.2.1) ∧
    (swissIds (swissPairings players)).count x ≤ 1 ∧
    (players.length % 2 = 0 → x ∈ players.map Prod.fst →
      (swissIds (swissPairings players)).count x = 1) ∧
    (∀ p ∈ evenPlayersRound (s.length / 2) s, p.1 ≠ p.2) ∧
    (evenPlayersRound (s.length / 2) s).countP (fun p => p.1 == y || p.2 == y) = 1 ∧
    (∀ p ∈ evenRoundsIter c t, p.1 ≠ p.2) ∧
    (evenRoundsIter c t).countP (fun p => p.1 == z || p.2 == z) = 2 := by
  have hepne := evenPlayersRound_ne s hsnd
  have heritne : ∀ p ∈ evenRoundsIter c t, p.1 ≠ p.2 := by
    intro p hp
    rcases mem_orientAll _ _ p hp with h | h
    · exact zip_rot_ne t htnd ht2 p h
    · exact fun he => zip_rot_ne t htnd ht2 (p.2, p.1) h he.symm
  refine ⟨swissPairings_ne players hndp, ?_, ?_, hepne, ?_, heritne, ?_⟩
  · have hperm := swissIds_perm players
    rw [hperm.count_eq, List.map_take]
    calc ((players.map Prod.fst).take (2 * (players.length / 2))).count x
        ≤ (players.map Prod.fst).count x := (List.take_sublist _ _).count_le x
      _ ≤ 1 := List.nodup_iff_count_le_one.mp hndp x
  · intro hev hx
    have hperm := swissIds_perm players
    have htake : players.take (2 * (players.length / 2)) = players := by
      have h2 : 2 * (players.length / 2) = players.length := by omega
      rw [h2, List.take_length]
    rw [htake] at hperm
    rw [hperm.count_eq]
    exact List.count_eq_one_of_mem hndp hx
  · rw [countP_contains_eq_occ y _ hepne, evenPlayersRound_occ s hsev,
      List.count_eq_one_of_mem hsnd hy]
  · rw [countP_contains_eq_occ z _ heritne, evenRoundsIter_occ,
      List.count_eq_one_of_mem htnd hz]

theorem claim_C8_amended_witness :
    (([(1, "a"), (2, "b")] : List (Nat × String)).map Prod.fst).Nodup ∧
    ([5, 6] : List Nat).Nodup ∧ ([5, 6] : List Nat).length % 2 = 0 ∧ 5 ∈ ([5, 6] : List Nat) ∧
    ([1, 2, 3] : List Nat).Nodup ∧ 2 ≤ ([1, 2, 3] : List Nat).length ∧
    2 ∈ ([1, 2, 3] : List Nat) ∧
    ((∀ q ∈ swissPairings [(1, "a"), (2, "b")], q.1 ≠ q.2.2.1) ∧
     (swissIds (swissPairings [(1, "a"), (2, "b")])).count 1 ≤ 1 ∧
     (([(1, "a"), (2, "b")] : List (Nat × String)).length % 2 = 0 →
       1 ∈ ([(1, "a"), (2, "b")] : List (Nat × String)).map Prod.fst →
       (swissIds (swissPairings [(1, "a"), (2, "b")])).count 1 = 1) ∧
     (∀ p ∈ evenPlayersRound (([5, 6] : List Nat).length / 2) [5, 6], p.1 ≠ p.2) ∧
     (evenPlayersRound (([5, 6] : List Nat).length / 2) [5, 6]).countP
       (fun p => p.1 == 5 || p.2 == 5) = 1 ∧
     (∀ p ∈ evenRoundsIter (fun _ => false) [1, 2, 3], p.1 ≠ p.2) ∧
     (evenRoundsIter (fun _ => false) [1, 2, 3]).countP
       (fun p => p.1 == 2 || p.2 == 2) = 2) :=
  ⟨by decide, by decide, by decide, by decide, by decide, by decide, by decide,
   claim_C8_amended [(1, "a"), (2, "b")] 1 [5, 6] 5 [1, 2, 3] (fun _ => false) 2
     (by decide) (by decide) (by decide) (by decide) (by decide) (by decide) (by decide)⟩

/-! ### Claim C9 -/

/-- C9 counterexample: with the ids `[1,2,3,4]`, one round, and the round
shuffle fixed to the identity, the code records `[(1,3), (2,4)]` — the winner
slot is always the first-half element of the shuffled list, with no per-pair
draw — whereas the spec-modelled strategy that applies a fresh per-pair coin
before recording can also produce `[(3,1), (4,2)]` for the very same shuffle.
The two disagree, so `even_players` does not apply a fair coin to each pair. -/
theorem claim_C9_cex :
    even_players_outcomes [1, 2, 3, 4] 1 (fun _ => [1, 2, 3, 4]) = [(1, 3), (2, 4)] ∧
    even_players_outcomes_drawSpec [1, 2, 3, 4] 1 (fun _ => [1, 2, 3, 4])
        (fun _ _ => true) = [(3, 1), (4, 2)] ∧
    even_players_outcomes [1, 2, 3, 4] 1 (fun _ => [1, 2, 3, 4]) ≠
      even_players_outcomes_drawSpec [1, 2, 3, 4] 1 (fun _ => [1, 2, 3, 4])
        (fun _ _ => true) := by
  refine ⟨rfl, rfl, ?_⟩
  decide

/-- C9 amended: only the odd-players strategy (`even_rounds`) draws a fresh
per-pair coin — flipping every coin of its stream reverses the recorded
orientation of every pair, pair by pair — while in the even-players strategy
every recorded winner comes from the first half and every loser from the
second half of that round's shuffled list, determined by the round's global
shuffle with no per-pair draw (`round_robin` likewise shuffles each pair;
see C4, which holds for every coin stream). -/
theorem claim_C9_amended (ids : List Nat) (rounds : Nat) (sh : Nat → List Nat)
    (co : Nat → Nat → Bool) (p : Nat × Nat)
    (hp : p ∈ even_players_outcomes ids rounds sh) :
    (∃ r, r < rounds ∧ p.1 ∈ (sh r).take (ids.length / 2) ∧
      p.2 ∈ (sh r).drop (ids.length / 2)) ∧
    even_rounds_outcomes ids rounds sh (fun r i => !(co r i)) =
      (even_rounds_outcomes ids rounds sh co).map (fun q => (q.2, q.1)) := by
  constructor
  · rcases List.mem_flatMap.mp hp with ⟨r, hr, hpr⟩
    exact ⟨r, List.mem_range.mp hr, List.of_mem_zip hpr⟩
  · unfold even_rounds_outcomes
    rw [List.map_flatMap]
    have hfn : (fun r => evenRoundsIter (fun i => !(co r i)) (sh r)) =
        (fun r => (evenRoundsIter (co r) (sh r)).map (fun q => (q.2, q.1))) := by
      funext r
      exact orientAll_flip (co r) _
    rw [hfn]

theorem claim_C9_amended_witness :
    ((1, 2) : Nat × Nat) ∈ even_players_outcomes [1, 2] 1 (fun _ => [1, 2]) ∧
    ((∃ r, r < 1 ∧ (1 : Nat) ∈ ((fun _ => [1, 2] : Nat → List Nat) r).take
        (([1, 2] : List Nat).length / 2) ∧
      (2 : Nat) ∈ ((fun _ => [1, 2] : Nat → List Nat) r).drop
        (([1, 2] : List Nat).length / 2)) ∧
     even_rounds_outcomes [1, 2] 1 (fun _ => [1, 2])
        (fun r i => !((fun _ _ => false : Nat → Nat → Bool) r i)) =
       (even_rounds_outcomes [1, 2] 1 (fun _ => [1, 2]) (fun _ _ => false)).map
         (fun q => (q.2, q.1))) :=
  ⟨by decide, claim_C9_amended [1, 2] 1 (fun _ => [1, 2]) (fun _ _ => false) (1, 2) (by decide)⟩

end Tournament
